import Mathlib

/-!
Verification of the `toyplex` LP / MIP solver (files `toyplex/simplex.py`,
`toyplex/model.py`, `toyplex/components.py`) against its specification.

The simplex tableau is embedded as a list of rows of rationals (the Python
code uses dense numpy float matrices; we use `ℚ` so that every operation is
exact and decidable).  Stateful Python methods become pure functions from a
state record to a state record; the two unbounded `while` loops (phase-1
pivoting and phase-2 pivoting) take an explicit fuel parameter, and a run
that exhausts its fuel simply stops in the `solving` state (code `-1`),
exactly like a Python run interrupted mid-loop.
-/

namespace Toyplex

abbrev Row := List ℚ
abbrev Tab := List Row

/-- `np.argmin`-style helper: the minimum of a nonempty list `x :: xs`. -/
def minOf {α : Type} [LinearOrder α] (x : α) (xs : List α) : α := xs.foldl min x

/-- First index of the minimum of a list, as computed by `np.argmin`
(ties resolved by the lowest index; `0` on the empty list). -/
def argmin {α : Type} [LinearOrder α] : List α → Nat
  | [] => 0
  | x :: xs =>
    match xs with
    | [] => 0
    | y :: ys => if x ≤ minOf y ys then 0 else argmin (y :: ys) + 1

theorem minOf_cons {α : Type} [LinearOrder α] (x y : α) (ys : List α) :
    minOf x (y :: ys) = min x (minOf y ys) := by
  induction ys generalizing x y with
  | nil => rfl
  | cons z zs ih =>
    have h1 : minOf x (y :: z :: zs) = min (min x y) (minOf z zs) := ih (min x y) z
    have h2 : minOf y (z :: zs) = min y (minOf z zs) := ih y z
    rw [h1, h2, min_assoc]

theorem minOf_le {α : Type} [LinearOrder α] (x : α) (xs : List α) :
    ∀ a ∈ x :: xs, minOf x xs ≤ a := by
  induction xs generalizing x with
  | nil =>
    intro a ha
    simp only [List.mem_singleton] at ha
    simp [minOf, ha]
  | cons y ys ih =>
    intro a ha
    rw [minOf_cons]
    rcases List.mem_cons.mp ha with h | h
    · exact le_trans (min_le_left _ _) (le_of_eq h.symm)
    · exact le_trans (min_le_right _ _) (ih y a h)

theorem argmin_lt_length {α : Type} [LinearOrder α] (x : α) (xs : List α) :
    argmin (x :: xs) < (x :: xs).length := by
  induction xs generalizing x with
  | nil => simp [argmin]
  | cons y ys ih =>
    by_cases h : x ≤ minOf y ys
    · simp [argmin, h]
    · simp only [argmin, h, if_false]
      have := ih y
      simpa [Nat.succ_lt_succ_iff] using this

theorem argmin_getD {α : Type} [LinearOrder α] (x : α) (xs : List α) (d : α) :
    (x :: xs).getD (argmin (x :: xs)) d = minOf x xs := by
  induction xs generalizing x with
  | nil => rfl
  | cons y ys ih =>
    by_cases h : x ≤ minOf y ys
    · simp only [argmin, h, if_true, List.getD]
      rw [minOf_cons]
      simp [min_eq_left h]
    · simp only [argmin, h, if_false]
      have hlt : minOf y ys < x := lt_of_not_le h
      show (y :: ys).getD (argmin (y :: ys)) d = minOf x (y :: ys)
      rw [ih y, minOf_cons, min_eq_right (le_of_lt hlt)]

theorem minOf_le_getD {α : Type} [LinearOrder α] (x : α) (xs : List α) (d : α)
    (j : Nat) (hj : j < (x :: xs).length) :
    minOf x xs ≤ (x :: xs).getD j d := by
  rw [List.getD_eq_getElem _ _ hj]
  exact minOf_le x xs _ (List.getElem_mem hj)

/-- The entry at `argmin` is `≤` every entry of the list. -/
theorem argmin_le_getD {α : Type} [LinearOrder α] (x : α) (xs : List α) (d : α)
    (j : Nat) (hj : j < (x :: xs).length) :
    (x :: xs).getD (argmin (x :: xs)) d ≤ (x :: xs).getD j d := by
  rw [argmin_getD]
  exact minOf_le_getD x xs d j hj

/-- Ties are broken by the lowest index: every entry strictly before
`argmin` is strictly greater than the minimum. -/
theorem argmin_first {α : Type} [LinearOrder α] (x : α) (xs : List α) (d : α)
    (j : Nat) (hj : j < argmin (x :: xs)) :
    (x :: xs).getD (argmin (x :: xs)) d < (x :: xs).getD j d := by
  induction xs generalizing x j with
  | nil => simp [argmin] at hj
  | cons y ys ih =>
    by_cases h : x ≤ minOf y ys
    · simp [argmin, h] at hj
    · simp only [argmin, h, if_false] at hj ⊢
      have hlt : minOf y ys < x := lt_of_not_le h
      match j with
      | 0 =>
        show (y :: ys).getD (argmin (y :: ys)) d < x
        rw [argmin_getD]
        exact hlt
      | Nat.succ j' =>
        have hj' : j' < argmin (y :: ys) := Nat.lt_of_succ_lt_succ hj
        exact ih y j' hj'

/-! ## The tableau engine (`toyplex/simplex.py`, class `Simplex`)

State of a `Simplex` object.  `constrs` and `objective` are the views of the
input tableau taken in `__init__` and are never mutated afterwards (numpy's
`vstack` copies, so pivoting on `tab` leaves them untouched); `put_canonical`
reads them when building the phase-1 tableau. -/

structure SpxState where
  tab : Tab
  constrs : Tab
  objective : Row
  n_constrs : Nat
  n_vars : Nat
  n_arts : Nat
  names : List String
  iterations : Nat
  code : Int
deriving DecidableEq, Repr

/-- Row `i` of a tableau (`tab[i]`). -/
def rowOf (t : Tab) (i : Nat) : Row := t.getD i []

/-- Entry `tab[i][j]`. -/
def entry (t : Tab) (i j : Nat) : ℚ := (rowOf t i).getD j 0

/-- Last entry of a row (`row[-1]`, the right-hand side). -/
def rowLastQ (r : Row) : ℚ := (r.getLast?).getD 0

/-- The objective row `tab[-1]`. -/
def lastRowOf (st : SpxState) : Row := (st.tab.getLast?).getD []

/-- Reduced cost `tab[-1][k]`. -/
def costAt (st : SpxState) (k : Nat) : ℚ := (lastRowOf st).getD k 0

/-- `tab[-1][:n_vars]`: the reduced costs over the structural
(non-artificial) columns. -/
def costsOf (st : SpxState) : List ℚ := (lastRowOf st).take st.n_vars

/-- Right-hand side of constraint row `i` (`tab[i][-1]`). -/
def rhsAt (st : SpxState) (i : Nat) : ℚ := rowLastQ (rowOf st.tab i)

/-- The minimum-ratio value of constraint row `i` for entering column `e`:
`tab[i][-1] / tab[i][e]` when `tab[i][e] > 0`, else `+∞`
(`float('inf')` in the source). -/
def ratioAt (st : SpxState) (e i : Nat) : WithTop ℚ :=
  if 0 < entry st.tab i e then ((rhsAt st i / entry st.tab i e : ℚ) : WithTop ℚ) else ⊤

/-- The ratio list built by `Simplex.pivot` for the default leaving-row rule. -/
def ratiosOf (st : SpxState) (e : Nat) : List (WithTop ℚ) :=
  (List.range st.n_constrs).map (fun i => ratioAt st e i)

/-- The row operations of `Simplex.pivot` (simplex.py lines 150-155): divide
the leaving row by the pivot element, then subtract from every other row
(objective rows included) its entering-column entry times the normalized
leaving row. -/
def pivotBody (st : SpxState) (e l : Nat) : SpxState :=
  let t := st.tab
  let lrow := (rowOf t l).map (fun a => a / entry t l e)
  { st with tab := (List.range t.length).map (fun i =>
      if i = l then lrow
      else List.zipWith (fun a b => a - entry t i e * b) (rowOf t i) lrow) }

/-- `Simplex.pivot` (simplex.py lines 136-158).  With no explicit arguments
the entering column is `np.argmin` of the structural reduced costs and the
leaving row is `np.argmin` of the ratio list; the iteration counter is
incremented in every case. -/
def Simplex.pivot (st : SpxState) (enters? leaves? : Option Nat) : SpxState :=
  let st1 : SpxState := { st with iterations := st.iterations + 1 }
  match enters? with
  | some e => pivotBody st1 e (leaves?.getD 0)
  | none =>
    let e := argmin (costsOf st1)
    let l := argmin (ratiosOf st1 e)
    pivotBody st1 e l

/-- `Simplex.should_continue` (simplex.py lines 161-178).  Returns the
updated state (the method writes `self.code`) and whether to keep pivoting. -/
def Simplex.should_continue (st : SpxState) : SpxState × Bool :=
  if (costsOf st).all (fun c => decide (0 ≤ c)) then
    if (List.range st.n_constrs).all (fun i => decide (0 ≤ rhsAt st i)) then
      ({ st with code := 0 }, false)
    else
      ({ st with code := 2 }, false)
  else
    match (List.range st.n_vars).find? (fun k =>
        decide (costAt st k < 0) &&
        (st.tab.dropLast).all (fun r => decide (r.getD k 0 ≤ 0))) with
    | some _ => ({ st with code := 1 }, false)
    | none => (st, true)

/-- `while self.should_continue(): self.pivot()` with explicit fuel
(both the phase-1 loop in `put_canonical` and the phase-2 loop in `solve`
are this exact loop). -/
def solveLoop : Nat → SpxState → SpxState
  | 0, st => st
  | fuel + 1, st =>
    let p := Simplex.should_continue st
    if p.2 then solveLoop fuel (Simplex.pivot p.1 none none) else p.1

/-- `Simplex.indices` (simplex.py lines 36-43): positions `(i, j)` of basic
(isolated-unit) entries: `tab[i][j] = 1` among the first `n_constrs` rows
and non-RHS columns, such that column `j` has exactly `n_constrs - 1` zeros
among the constraint rows. -/
def indicesOf (st : SpxState) : List (Nat × Nat) :=
  let w := (st.tab.headD []).length
  (List.range st.n_constrs).flatMap (fun i =>
    (List.range (w - 1)).filterMap (fun j =>
      if entry st.tab i j = 1 ∧
         ((List.range st.n_constrs).countP (fun i2 => decide (entry st.tab i2 j = 0)))
           = st.n_constrs - 1
      then some (i, j) else none))

/-- `Simplex.is_canonical` (simplex.py lines 45-62): every RHS entry of the
tableau is nonnegative and at least `n_constrs` basic columns exist. -/
def Simplex.is_canonical (st : SpxState) : Bool :=
  (st.tab.all (fun r => decide (0 ≤ rowLastQ r))) &&
  !(decide ((indicesOf st).length < st.n_constrs))

/-- A row of `n` zeros. -/
def zerosRow (n : Nat) : Row := List.replicate n 0

/-- A row of `n` entries with a single `1` at position `k`. -/
def unitRow (n k : Nat) : Row := (List.range n).map (fun j => if j = k then 1 else 0)

/-- The construction part of `Simplex.put_canonical` (simplex.py lines
66-94): append one artificial column per row lacking a basic column, build
the phase-1 objective row as the negated sum of the rows that received an
artificial variable (with the artificial columns of that row then zeroed),
extend the true objective row with zeros, and stack
`constraints / objective / artificial objective`. -/
def setupArt (st : SpxState) : SpxState :=
  let indices := indicesOf st
  let i_indices := indices.map Prod.fst
  let n_arts := st.n_constrs - indices.length
  let names2 := st.names ++ (List.range n_arts).map (fun i => "a" ++ toString (i + 1))
  let art_i_indices := (List.range st.n_constrs).filter (fun i => !(i_indices.contains i))
  let auxRow := fun i =>
    if art_i_indices.contains i then unitRow n_arts (art_i_indices.indexOf i)
    else zerosRow n_arts
  let art_constr := (List.range st.n_constrs).map (fun i =>
    (rowOf st.constrs i).dropLast ++ auxRow i ++ [rowLastQ (rowOf st.constrs i)])
  let w2 := (art_constr.headD []).length
  let ao0 := art_i_indices.foldl
    (fun acc i => List.zipWith (fun a b => a - b) acc (rowOf art_constr i))
    (zerosRow w2)
  let ao := (List.range ao0.length).map (fun j =>
    if st.n_vars ≤ j ∧ j + 1 < ao0.length then 0 else ao0.getD j 0)
  let objective2 := st.objective.dropLast ++ zerosRow n_arts ++ [rowLastQ st.objective]
  { st with tab := art_constr ++ [objective2, ao], names := names2, n_arts := n_arts }

/-- One step of the redundancy-removal loop of `Simplex.put_canonical`
(simplex.py lines 105-118): if the basic column of `idx` is artificial,
either leave the row (when its structural part is all zero: the constraint
is redundant) or pivot on its first nonzero structural entry. -/
def removeStep (st : SpxState) (idx : Nat × Nat) : SpxState :=
  if st.n_vars ≤ idx.2 then
    let leaves := idx.1
    if (List.range st.n_vars).all (fun j => decide (entry st.tab leaves j = 0)) then st
    else
      let enters :=
        ((List.range st.n_vars).find? (fun j => decide (entry st.tab leaves j ≠ 0))).getD 0
      Simplex.pivot st (some enters) (some leaves)
  else st

/-- The redundancy-removal loop of `Simplex.put_canonical` (lines 104-118):
the basic-variable index list is computed once and then each entry is
processed against the live tableau. -/
def removeRedundancy (st : SpxState) : SpxState :=
  (indicesOf st).foldl removeStep st

/-- The final feasibility check of `Simplex.put_canonical` (lines 120-134):
if the auxiliary objective value (bottom-right cell) is within `1e-5` of
zero, drop the artificial objective row and the artificial columns and
return to the solving state; otherwise the original problem is infeasible. -/
def canonCheck (st : SpxState) : SpxState :=
  if |rowLastQ ((st.tab.getLast?).getD [])| ≤ 1 / 100000 then
    { st with
      names := if st.n_arts = 0 then [] else st.names.take (st.names.length - st.n_arts),
      tab := st.tab.dropLast.map (fun r => r.take st.n_vars ++ [rowLastQ r]),
      code := -1 }
  else
    { st with code := 2 }

/-- `Simplex.put_canonical` (simplex.py lines 64-134). -/
def Simplex.put_canonical (fuel : Nat) (st : SpxState) : SpxState :=
  canonCheck (removeRedundancy (solveLoop fuel (setupArt st)))

/-- `Simplex.__init__` (simplex.py lines 12-28). -/
def Simplex.new (arg_tab : Tab) (names : List String) : SpxState :=
  { tab := arg_tab
    constrs := arg_tab.dropLast
    objective := (arg_tab.getLast?).getD []
    n_constrs := arg_tab.dropLast.length
    n_vars := ((arg_tab.headD []).length) - 1
    n_arts := 0
    names := names
    iterations := 0
    code := -1 }

/-- `Simplex.solve` (simplex.py lines 180-198), diagnostics omitted:
phase 1 when the tableau is not canonical, then phase-2 pivoting while the
state is still `solving`. -/
def Simplex.solve (fuel : Nat) (st : SpxState) : SpxState :=
  let st1 := if Simplex.is_canonical st then st else Simplex.put_canonical fuel st
  if st1.code = -1 then solveLoop fuel st1 else st1

/-! ## Python dictionaries

`toyplex` keeps variables in `dict`s keyed by name.  A Python dict preserves
insertion order; assigning to an existing key overwrites the value in place,
a new key is appended.  We embed dicts as ordered association lists. -/

abbrev Dict (τ : Type) : Type := List (String × τ)

/-- `d[k]` as an `Option` (`none` means `KeyError`). -/
def dget? {τ : Type} (d : Dict τ) (k : String) : Option τ :=
  (List.find? (fun p => p.1 == k) d).map Prod.snd

/-- `d[k] = v`: overwrite in place if the key exists, else append. -/
def dinsert {τ : Type} (k : String) (v : τ) : Dict τ → Dict τ
  | [] => [(k, v)]
  | p :: rest => if p.1 == k then (k, v) :: rest else p :: dinsert k v rest

/-- `d.update(other)`: insert every entry of `other` in order. -/
def dupdate {τ : Type} (d other : Dict τ) : Dict τ :=
  List.foldl (fun acc p => dinsert p.1 p.2 acc) d other

/-- `del d[k]`. -/
def dremove {τ : Type} (d : Dict τ) (k : String) : Dict τ :=
  List.filter (fun p => !(p.1 == k)) d

/-- `d.get(k, v)`. -/
def dgetD {τ : Type} (d : Dict τ) (k : String) (v : τ) : τ := (dget? d k).getD v

/-! ## Components (`toyplex/components.py`) -/

/-- A decision variable: name, kind (`"cont"`, `"bin"` or `"int"`), and the
solution value, `none` until written after a successful solve. -/
structure PVar where
  name : String
  type : String
  val : Option ℚ
deriving DecidableEq, Repr

/-- A normalized linear constraint: coefficient mapping, sense and
right-hand scalar, as produced by `LinConstr.__init__`. -/
structure PLinConstr where
  coeffs : Dict ℚ
  sense : String
  b : ℚ
deriving DecidableEq, Repr

/-- `LinConstr.__init__` (components.py lines 213-233): default the constant
terms to 0, fold `lhs - rhs` into one coefficient mapping, and split off the
constant as the right-hand side `b`. -/
def linConstrOf (lhs0 : Dict ℚ) (sense : String) (rhs0 : Dict ℚ) : PLinConstr :=
  let lhs := if (dget? lhs0 "const").isNone then dinsert "const" 0 lhs0 else lhs0
  let rhs := if (dget? rhs0 "const").isNone then dinsert "const" 0 rhs0 else rhs0
  let coeffs := rhs.foldl (fun acc p =>
    if (dget? lhs p.1).isSome then dinsert p.1 (dgetD acc p.1 0 - p.2) acc
    else dinsert p.1 (-p.2) acc) lhs
  { coeffs := dremove coeffs "const", sense := sense, b := -(dgetD coeffs "const" 0) }

/-- `var >= c` for a number `c` (`Var.__ge__`, components.py lines 54-56):
`LinConstr(1 * self, ">=", LinExpr({const: c}))`. -/
def varGe (nm : String) (c : ℚ) : PLinConstr := linConstrOf [(nm, 1)] ">=" [("const", c)]

/-- `var <= c` for a number `c` (`Var.__le__`, components.py lines 46-48). -/
def varLe (nm : String) (c : ℚ) : PLinConstr := linConstrOf [(nm, 1)] "<=" [("const", c)]

/-! ## Relaxation nodes (`toyplex/model.py`, class `Node`) -/

/-- State of a `Node`.  The Python object keys `conts`/`bins`/`ints` and the
union dict `vars` hold the *same* `Var` objects by reference; we keep
per-dict copies and propagate every `val` write to all of them by name
(see `Node.set_val`), which reproduces the aliasing. -/
structure NodeSt where
  key : Nat
  code : Int
  sense : String
  conts : Dict PVar
  bins : Dict PVar
  ints : Dict PVar
  varsD : Dict PVar
  slacks : Dict PVar
  surplus : Dict PVar
  constrs : List PLinConstr
  objval : Option ℚ
  tab : Tab
  spx : Option SpxState
deriving DecidableEq, Repr

/-- A freshly constructed node (`Node.__init__` with the given key; the
tableau is empty until assembled). -/
def Node.new (key : Nat) : NodeSt :=
  { key := key, code := -1, sense := "min", conts := [], bins := [], ints := [],
    varsD := [], slacks := [], surplus := [], constrs := [], objval := none,
    tab := [], spx := none }

/-- `Node.add_constr` (model.py lines 67-83): deep-copy the constraint, then
append a slack variable (coefficient `+1`) for `<=`, a surplus variable
(coefficient `-1`) for `>=`, nothing for `==`, and record the constraint. -/
def Node.add_constr (st : NodeSt) (c0 : PLinConstr) : NodeSt :=
  if c0.sense == "==" then
    { st with constrs := st.constrs ++ [c0] }
  else if c0.sense == "<=" then
    let nm := "s" ++ toString (st.slacks.length + 1)
    let c := { c0 with coeffs := dinsert nm 1 c0.coeffs }
    { st with slacks := dinsert nm ⟨nm, "cont", none⟩ st.slacks,
              constrs := st.constrs ++ [c] }
  else if c0.sense == ">=" then
    let nm := "p" ++ toString (st.surplus.length + 1)
    let c := { c0 with coeffs := dinsert nm (-1) c0.coeffs }
    { st with surplus := dinsert nm ⟨nm, "cont", none⟩ st.surplus,
              constrs := st.constrs ++ [c] }
  else
    { st with constrs := st.constrs ++ [c0] }

/-- `Node.add_var` (model.py lines 43-65).  `lb` defaults to `0`, `ub`
defaults to `+∞` (`none`).  Only the `"cont"` branch looks at the bounds; a
`"bin"` variable always receives `var <= 1`; an `"int"` variable receives no
constraint.  Returns the updated node and `self.vars[name]`. -/
def Node.add_var (st : NodeSt) (ty : String) (lb : ℚ) (ub : Option ℚ)
    (name : Option String) : NodeSt × Option PVar :=
  if ty == "cont" then
    let nm := name.getD ("x" ++ toString (st.conts.length + 1))
    let st1 := { st with conts := dinsert nm ⟨nm, ty, none⟩ st.conts }
    let st2 := { st1 with varsD := dupdate st1.varsD st1.conts }
    let st3 := if 0 < lb then Node.add_constr st2 (varGe nm lb) else st2
    let st4 := match ub with
      | some u => Node.add_constr st3 (varLe nm u)
      | none => st3
    (st4, dget? st4.varsD nm)
  else if ty == "bin" then
    let nm := name.getD ("b" ++ toString (st.bins.length + 1))
    let st1 := { st with bins := dinsert nm ⟨nm, ty, none⟩ st.bins }
    let st2 := { st1 with varsD := dupdate st1.varsD st1.bins }
    let st3 := Node.add_constr st2 (varLe nm 1)
    (st3, dget? st3.varsD nm)
  else if ty == "int" then
    let nm := name.getD ("i" ++ toString (st.ints.length + 1))
    let st1 := { st with ints := dinsert nm ⟨nm, ty, none⟩ st.ints }
    let st2 := { st1 with varsD := dupdate st1.varsD st1.ints }
    (st2, dget? st2.varsD nm)
  else
    (st, name.bind (fun s => dget? st.varsD s))

/-- `float(x).is_integer()` for an exact rational value. -/
def qIsInteger (q : ℚ) : Bool := q.den == 1

/-- `Node.int_soln` (model.py lines 155-164): exact integrality test over
the integer and binary variables (in that order); returns the flag and the
number of fractional variables. -/
def Node.int_soln (st : NodeSt) : Bool × Nat :=
  let vs := (st.ints.map Prod.snd) ++ (st.bins.map Prod.snd)
  let num_fracvar := vs.countP (fun v => !(qIsInteger ((v.val).getD 0)))
  (num_fracvar == 0, num_fracvar)

/-- Write `self.vars[k].val = v`.  The same `Var` object also sits in the
`conts`/`bins`/`ints` dict that created it, so the write is visible there
too; we update every dict that has the key. -/
def Node.set_val (st : NodeSt) (k : String) (v : ℚ) : NodeSt :=
  let upd := fun (d : Dict PVar) =>
    match dget? d k with
    | some pv => dinsert k { pv with val := some v } d
    | none => d
  { st with varsD := upd st.varsD, conts := upd st.conts,
            bins := upd st.bins, ints := upd st.ints }

/-- Bottom-right cell of a solved tableau. -/
def botRight (st : SpxState) : ℚ := rowLastQ ((st.tab.getLast?).getD [])

/-- `Node.optimize` (model.py lines 134-153): run the simplex engine on the
node's tableau, record the status code, and on success extract the
objective value (sign-adjusted by sense) and each structural variable's
value from its basic column. -/
def Node.optimize (fuel : Nat) (st : NodeSt) : NodeSt :=
  let names := (st.varsD.map Prod.fst) ++ (st.slacks.map Prod.fst)
    ++ (st.surplus.map Prod.fst)
  let spx := Simplex.solve fuel (Simplex.new st.tab names)
  let st1 := { st with code := spx.code, spx := some spx }
  if spx.code = 0 then
    let st2 :=
      if st.sense == "min" then { st1 with objval := some (-(botRight spx)) }
      else if st.sense == "max" then { st1 with objval := some (botRight spx) }
      else st1
    (List.range st.varsD.length).foldl (fun acc idx =>
      let k := ((st.varsD.map Prod.fst).getD idx "")
      let v : ℚ :=
        if (spx.tab.dropLast.countP (fun r => decide (0 < r.getD idx 0))) = 1 then
          match (List.range spx.tab.length).filter
              (fun i => decide (entry spx.tab i idx = 1)) with
          | [i0] => rhsAt spx i0
          | _ => 0
        else 0
      Node.set_val acc k v) st2
  else st1

/-! ## The branch-and-bound tree (`toyplex/model.py`, class `Model`) -/

/-- Incumbent values live in `ℝ ∪ {±∞}` in the source (`math.inf` /
`-math.inf`); node objective values are always finite. -/
inductive XQ where
  | ninf : XQ
  | fin : ℚ → XQ
  | pinf : XQ
deriving DecidableEq, Repr

/-- Strict `<` on `ℚ ∪ {±∞}`, matching Python float comparison. -/
def XQ.blt : XQ → XQ → Bool
  | XQ.ninf, XQ.ninf => false
  | XQ.ninf, _ => true
  | XQ.fin _, XQ.ninf => false
  | XQ.fin a, XQ.fin b => decide (a < b)
  | XQ.fin _, XQ.pinf => true
  | XQ.pinf, _ => false

/-- The search-control state of a `Model`: global status code, candidate
keys, incumbent key and value, and the optimization sense. -/
structure ModelSt where
  code : Int
  candidates : List Nat
  icmbkey : Option Nat
  icmbval : XQ
  sense : String
deriving DecidableEq, Repr

/-- `Model.__init__` (model.py lines 170-210): status `solving`, the root
node (key 0) as the only candidate, no incumbent, incumbent value `+∞`,
sense `min`. -/
def Model.new : ModelSt :=
  { code := -1, candidates := [0], icmbkey := none, icmbval := XQ.pinf,
    sense := "min" }

/-- The sense handling of `Model.set_objective` (model.py lines 256-263):
switching to `max` resets the incumbent value to `-∞`. -/
def Model.set_objective_sense (m : ModelSt) (sense : String) : ModelSt :=
  if sense == "max" then { m with sense := "max", icmbval := XQ.ninf } else m

/-- `Model.update_icmb` (model.py lines 289-294): record the node as the
incumbent exactly when its objective strictly improves on the incumbent
value, sense-aware. -/
def Model.update_icmb (m : ModelSt) (node : NodeSt) : ModelSt :=
  match node.objval with
  | none => m
  | some v =>
    if ((m.sense == "max") && XQ.blt m.icmbval (XQ.fin v)) ||
       ((m.sense == "min") && XQ.blt (XQ.fin v) m.icmbval) then
      { m with icmbkey := some node.key, icmbval := XQ.fin v }
    else m

/-- `Model.relax` (model.py lines 296-331) for a model without an
integral-solution callback (`int_cb is None`): solve the node's relaxation;
on failure remove it from the candidates and — for *any* node, root or not —
propagate an unbounded code to the tree; on an integral solution remove it
from the candidates and update the incumbent; otherwise leave it. -/
def Model.relax (fuel : Nat) (m : ModelSt) (node : NodeSt) : ModelSt × NodeSt :=
  let node1 := Node.optimize fuel node
  if node1.code ≠ 0 then
    let m1 := { m with candidates := m.candidates.erase node1.key }
    (if node1.code = 1 then { m1 with code := 1 } else m1, node1)
  else
    if (Node.int_soln node1).1 then
      let m1 := { m with candidates := m.candidates.erase node1.key }
      (Model.update_icmb m1 node1, node1)
    else (m, node1)

/-- Python truthiness of `self.icmbkey` (an optional integer key): `None`
and `0` are falsy. -/
def pyTruthyKey : Option Nat → Bool
  | none => false
  | some k => k != 0

/-- The empty-candidate-set branch of the main loop of `Model.optimize`
(model.py lines 370-374): `elif self.icmbkey: self.code = 0 else:
self.code = 2`. -/
def Model.optimize_no_candidates (m : ModelSt) : ModelSt :=
  if pyTruthyKey m.icmbkey then { m with code := 0 } else { m with code := 2 }

/-- The branching-variable selection of `Model.branch` (model.py line 340):
the first entry of `node.vars` — variables of every kind, in creation
order — whose value is fractional (`none` stands for the `IndexError` on an
all-integral node). -/
def Model.branch_var (node : NodeSt) : Option PVar :=
  ((node.varsD.map Prod.snd).filter (fun v => !(qIsInteger ((v.val).getD 0)))).head?

/-- `Model.add_var` (model.py lines 212-231), acting on the root node
`self.nodes[0]`: dispatch on which of `lb`/`ub` were supplied (when both
are, *no* branch fires and no variable is created), then return
`self.nodes[0].vars[name]` under the original `name` argument —
`none` stands for the `KeyError` raised by the lookup.  The model-level
mirror dicts (lines 221-230) copy root state and do not affect the result. -/
def Model.add_var (root : NodeSt) (ty : String) (lb ub : Option ℚ)
    (name : Option String) : NodeSt × Option PVar :=
  let root1 :=
    if lb.isNone && ub.isNone then (Node.add_var root ty 0 none name).1
    else if lb.isNone && ub.isSome then (Node.add_var root ty 0 ub name).1
    else if lb.isSome && ub.isNone then (Node.add_var root ty (lb.getD 0) none name).1
    else root
  (root1, name.bind (fun s => dget? root1.varsD s))

/-! ## Concrete instances used to settle the claims -/

/-- A non-root node (key 1) whose relaxation is unbounded: the single
constraint `x1 - x2 = 1` is canonical in `x1`, and the objective `-x2` has a
negative reduced cost over a non-positive column. -/
def c1Node : NodeSt :=
  { Node.new 1 with
    conts := [("x1", ⟨"x1", "cont", none⟩), ("x2", ⟨"x2", "cont", none⟩)],
    varsD := [("x1", ⟨"x1", "cont", none⟩), ("x2", ⟨"x2", "cont", none⟩)],
    tab := [[1, -1, 1], [0, -1, 0]] }

/-- A model state in which `c1Node` is the only candidate. -/
def c1Model : ModelSt := { Model.new with candidates := [1] }

/-- A root node (key 0) whose relaxation is immediately optimal and
integral: `x = 2` for an integer variable `x`, zero objective. -/
def c2Root : NodeSt :=
  { Node.new 0 with
    ints := [("x", ⟨"x", "int", none⟩)],
    varsD := [("x", ⟨"x", "int", none⟩)],
    tab := [[1, 2], [0, 0]] }

/-- The model state after relaxing `c2Root` in a fresh model. -/
def c2Model : ModelSt := (Model.relax 4 Model.new c2Root).1

/-- A value that differs from the integer `1` by `2 ^ (-30) < 10 ^ (-6)`. -/
def c6val : ℚ := 1 - 1 / 1073741824

/-- A node holding a single integer variable whose relaxed value is
`c6val`. -/
def c6Node : NodeSt :=
  { Node.new 0 with
    ints := [("i1", ⟨"i1", "int", some c6val⟩)],
    varsD := [("i1", ⟨"i1", "int", some c6val⟩)] }

/-- A node whose `vars` dict holds a fractional continuous variable `c`
before a fractional integer variable `i` (creation order `c`, then `i`). -/
def c7Node : NodeSt :=
  { Node.new 0 with
    conts := [("c", ⟨"c", "cont", some (1 / 2)⟩)],
    ints := [("i", ⟨"i", "int", some (1 / 2)⟩)],
    varsD := [("c", ⟨"c", "cont", some (1 / 2)⟩), ("i", ⟨"i", "int", some (1 / 2)⟩)] }

/-- A root node that already owns a continuous variable named `x`. -/
def c10Root : NodeSt := (Node.add_var (Node.new 0) "cont" 0 none (some "x")).1

/-! ## Claims -/

/-- C1: the spec requires that a relaxation found unbounded at a *non-root*
node only removes that node from the candidate set, leaving the tree's
global status unchanged.  The code (`Model.relax`, model.py lines 310-314)
instead sets the global code to `1` for *any* node with an unbounded
relaxation: on the non-root node `c1Node` (key 1), whose relaxation is
unbounded, `Model.relax` turns the global status from solving (`-1`) into
unbounded (`1`).  The root half of the claim holds; the non-root half is
contradicted, which spec §9 itself records as a legacy flaw of the source. -/
theorem relax_unbounded_nonroot_sets_global_code :
    c1Node.key ≠ 0 ∧
    (Node.optimize 4 c1Node).code = 1 ∧
    c1Model.code = -1 ∧
    (Model.relax 4 c1Model c1Node).1.code = 1 ∧
    (Model.relax 4 c1Model c1Node).1.candidates = [] := by
  with_unfolding_all decide

/-- C2: the claim states that an empty candidate set with a recorded
incumbent — the root node, key 0, included — yields global status optimal
(`0`).  The code tests `elif self.icmbkey:` (model.py line 371), and Python
deems the key `0` falsy: after the integral root relaxation of `c2Root`
records the incumbent `(key 0, value 0)` and empties the candidate set, the
empty-candidate branch of `Model.optimize` sets the code to `2`
(infeasible), not `0`. -/
theorem optimize_empty_candidates_root_incumbent_infeasible :
    c2Model.icmbkey = some 0 ∧
    c2Model.candidates = [] ∧
    c2Model.code = -1 ∧
    (Model.optimize_no_candidates c2Model).code = 2 := by
  with_unfolding_all decide

/-- C6: the claim states that `Node.int_soln` classifies a solution
integral whenever every integer/binary value is within `1e-6` of its
nearest integer.  The code (model.py lines 155-164) uses the exact test
`float(var.val).is_integer()`: on `c6Node`, whose only integer variable has
value `1 - 2 ^ (-30)` — a nonzero distance below `10 ^ (-6)` from `1` — it
reports the solution fractional (`(false, 1)`), not integral. -/
theorem int_soln_exact_equality_not_tolerance :
    Node.int_soln c6Node = (false, 1) ∧
    c6val - 1 ≠ 0 ∧ |c6val - 1| < 1 / 1000000 := by
  with_unfolding_all decide

/-- C7: the claim states that `Model.branch` always branches on the first
*integer-or-binary* variable with a fractional value and never on a
continuous one.  The selection (model.py line 340) scans `node.vars` —
variables of every kind — so on `c7Node`, where a fractional continuous
variable `c` precedes the fractional integer variable `i`, the continuous
variable is chosen. -/
theorem branch_var_selects_continuous_variable :
    Model.branch_var c7Node = some ⟨"c", "cont", some (1 / 2)⟩ ∧
    (some ⟨"c", "cont", some (1 / 2)⟩ : Option PVar).map PVar.type = some "cont" ∧
    (∃ p ∈ c7Node.ints, qIsInteger ((p.2.val).getD 0) = false) := by
  with_unfolding_all decide

/-- C8 counterexample: the claim asserts that `Node.add_var` injects a
`var >= lb` constraint whenever `lb > 0`, *regardless of the variable's
kind*.  Adding an integer variable with `lb = 2 > 0` to a fresh node leaves
the constraint list empty: only the `"cont"` branch of `Node.add_var`
(model.py lines 45-53) looks at the bounds. -/
theorem add_var_int_lb_adds_no_constraint :
    (0 : ℚ) < 2 ∧
    (Node.add_var (Node.new 0) "int" 2 none (some "z")).1.constrs = [] := by
  with_unfolding_all decide

/-- C10 counterexample: the claim asserts that `Model.add_var` raises a
`KeyError` whenever both bounds are supplied.  If the requested name
already names a root variable, the final lookup succeeds and the *existing*
variable is returned: on a root that already has `x`, a call with both
bounds and `name = "x"` returns that variable instead of raising. -/
theorem model_add_var_both_bounds_existing_name_returns :
    (Model.add_var c10Root "cont" (some 0) (some 5) (some "x")).2
      = some ⟨"x", "cont", none⟩ := by
  with_unfolding_all decide

/-- C9: the incumbent never worsens.  The incumbent value starts at `+∞`
for the default minimize sense (`Model.__init__`) and at `-∞` after
switching the objective sense to maximize (`Model.set_objective`), and
every call to `Model.update_icmb` either returns the model state — and in
particular the incumbent key and value — unchanged, or records the node's
objective value as the new incumbent value after a sense-aware *strict*
comparison against the old one. -/
theorem update_icmb_never_worsens :
    Model.new.icmbval = XQ.pinf ∧
    Model.new.sense = "min" ∧
    (Model.set_objective_sense Model.new "max").icmbval = XQ.ninf ∧
    (∀ (m : ModelSt) (node : NodeSt),
      Model.update_icmb m node = m ∨
      (∃ v, node.objval = some v ∧
        (Model.update_icmb m node).icmbkey = some node.key ∧
        (Model.update_icmb m node).icmbval = XQ.fin v ∧
        ((m.sense = "min" ∧ XQ.blt (XQ.fin v) m.icmbval = true) ∨
         (m.sense = "max" ∧ XQ.blt m.icmbval (XQ.fin v) = true)))) := by
  refine ⟨rfl, rfl, rfl, ?_⟩
  intro m node
  cases hov : node.objval with
  | none =>
    left
    simp [Model.update_icmb, hov]
  | some v =>
    by_cases hc : (((m.sense == "max") && XQ.blt m.icmbval (XQ.fin v)) ||
        ((m.sense == "min") && XQ.blt (XQ.fin v) m.icmbval)) = true
    · right
      refine ⟨v, rfl, ?_, ?_, ?_⟩
      · simp [Model.update_icmb, hov, hc]
      · simp [Model.update_icmb, hov, hc]
      · rcases Bool.or_eq_true_iff.mp hc with h | h
        · obtain ⟨h1, h2⟩ := Bool.and_eq_true_iff.mp h
          exact Or.inr ⟨beq_iff_eq.mp h1, h2⟩
        · obtain ⟨h1, h2⟩ := Bool.and_eq_true_iff.mp h
          exact Or.inl ⟨beq_iff_eq.mp h1, h2⟩
    · left
      simp [Model.update_icmb, hov, hc]

theorem costsOf_length (st : SpxState) (hlen : st.n_vars ≤ (lastRowOf st).length) :
    (costsOf st).length = st.n_vars := by
  simp [costsOf, hlen]

theorem costsOf_getD (st : SpxState) (j : Nat) (hj : j < st.n_vars) :
    (costsOf st).getD j 0 = costAt st j := by
  unfold costsOf costAt
  by_cases hl : j < (lastRowOf st).length
  · rw [List.getD_eq_getElem _ _ (by simpa [hj] using hl),
      List.getD_eq_getElem _ _ hl]
    exact List.getElem_take _
  · rw [List.getD_eq_default, List.getD_eq_default _ _ (by simpa using hl)]
    simp only [List.length_take, lt_min_iff, not_and_or] at *
    omega

theorem costsOf_all_iff (st : SpxState) (hlen : st.n_vars ≤ (lastRowOf st).length) :
    ((costsOf st).all (fun c => decide (0 ≤ c)) = true) ↔
      (∀ j, j < st.n_vars → 0 ≤ costAt st j) := by
  rw [List.all_eq_true]
  constructor
  · intro h j hj
    have hjl : j < (costsOf st).length := by rw [costsOf_length st hlen]; exact hj
    have := h _ (List.getElem_mem hjl)
    rw [decide_eq_true_eq] at this
    rwa [← List.getD_eq_getElem _ 0 hjl, costsOf_getD st j hj] at this
  · intro h c hc
    obtain ⟨j, hjl, rfl⟩ := List.mem_iff_getElem.mp hc
    rw [decide_eq_true_eq, ← List.getD_eq_getElem _ 0 hjl]
    have hj : j < st.n_vars := by rwa [costsOf_length st hlen] at hjl
    rw [costsOf_getD st j hj]
    exact h j hj

/-- C4: `Simplex.should_continue` sets status optimal (`0`) when every
structural reduced cost of the objective row is nonnegative, except that a
negative RHS among the constraint rows turns that verdict into infeasible
(`2`); and when some structural reduced cost is negative with every entry
of its column outside the objective row nonpositive, it sets status
unbounded (`1`); in all these cases it reports `false`, stopping the
pivoting loop immediately. -/
theorem should_continue_optimal_infeasible_unbounded (st : SpxState)
    (hlen : st.n_vars ≤ (lastRowOf st).length) :
    ((∀ j, j < st.n_vars → 0 ≤ costAt st j) →
      (Simplex.should_continue st).2 = false ∧
      (Simplex.should_continue st).1.code =
        (if ∀ i, i < st.n_constrs → 0 ≤ rhsAt st i then 0 else 2)) ∧
    ((∃ k, k < st.n_vars ∧ costAt st k < 0 ∧
        ∀ r ∈ st.tab.dropLast, r.getD k 0 ≤ 0) →
      (Simplex.should_continue st).2 = false ∧
      (Simplex.should_continue st).1.code = 1) := by
  constructor
  · intro h
    have hall : (costsOf st).all (fun c => decide (0 ≤ c)) = true :=
      (costsOf_all_iff st hlen).mpr h
    unfold Simplex.should_continue
    rw [if_pos hall]
    by_cases hr : ∀ i, i < st.n_constrs → 0 ≤ rhsAt st i
    · have hrb : (List.range st.n_constrs).all (fun i => decide (0 ≤ rhsAt st i)) = true := by
        rw [List.all_eq_true]
        intro i hi
        exact decide_eq_true (hr i (List.mem_range.mp hi))
      rw [if_pos hrb, if_pos hr]
      exact ⟨rfl, rfl⟩
    · have hrb : ¬ ((List.range st.n_constrs).all (fun i => decide (0 ≤ rhsAt st i)) = true) := by
        intro hA
        apply hr
        intro i hi
        have := (List.all_eq_true.mp hA) i (List.mem_range.mpr hi)
        exact decide_eq_true_eq.mp this
      rw [if_neg hrb, if_neg hr]
      exact ⟨rfl, rfl⟩
  · rintro ⟨k, hk, hneg, hcol⟩
    have hall : ¬ ((costsOf st).all (fun c => decide (0 ≤ c)) = true) := by
      intro hA
      exact absurd ((costsOf_all_iff st hlen).mp hA k hk) (not_le.mpr hneg)
    unfold Simplex.should_continue
    rw [if_neg hall]
    have hsome : ((List.range st.n_vars).find? (fun k' =>
        decide (costAt st k' < 0) &&
        (st.tab.dropLast).all (fun r => decide (r.getD k' 0 ≤ 0)))).isSome := by
      rw [List.find?_isSome]
      refine ⟨k, List.mem_range.mpr hk, ?_⟩
      rw [Bool.and_eq_true]
      refine ⟨decide_eq_true hneg, ?_⟩
      rw [List.all_eq_true]
      intro r hr
      exact decide_eq_true (hcol r hr)
    obtain ⟨k0, hk0⟩ := Option.isSome_iff_exists.mp hsome
    rw [hk0]
    exact ⟨rfl, rfl⟩

/-- Witness for C4: on a canonical optimal tableau the first branch fires
with verdict optimal, and on a tableau with a negative reduced cost over a
nonpositive column the second branch fires with verdict unbounded. -/
theorem should_continue_optimal_infeasible_unbounded_witness :
    (((Simplex.should_continue (Simplex.new [[1, 2], [0, 0]] ["x1"])).2 = false ∧
      (Simplex.should_continue (Simplex.new [[1, 2], [0, 0]] ["x1"])).1.code =
        (if ∀ i, i < (Simplex.new [[1, 2], [0, 0]] ["x1"]).n_constrs →
            0 ≤ rhsAt (Simplex.new [[1, 2], [0, 0]] ["x1"]) i then 0 else 2)) ∧
     ((Simplex.should_continue (Simplex.new [[1, -1, 1], [0, -1, 0]] ["x1", "x2"])).2 = false ∧
      (Simplex.should_continue (Simplex.new [[1, -1, 1], [0, -1, 0]] ["x1", "x2"])).1.code = 1)) :=
  ⟨(should_continue_optimal_infeasible_unbounded (Simplex.new [[1, 2], [0, 0]] ["x1"])
      (by decide)).1 (by decide),
   (should_continue_optimal_infeasible_unbounded (Simplex.new [[1, -1, 1], [0, -1, 0]] ["x1", "x2"])
      (by decide)).2 ⟨1, by decide, by decide, by decide⟩⟩

/-! Helper lemmas for the pivot characterization (C3). -/

/-- The entering column chosen by the default rule of `Simplex.pivot`. -/
def entersOf (st : SpxState) : Nat := argmin (costsOf st)

/-- The leaving row chosen by the default rule of `Simplex.pivot`. -/
def leavesOf (st : SpxState) : Nat := argmin (ratiosOf st (entersOf st))

theorem argmin_lt_length_of_ne_nil {α : Type} [LinearOrder α] (l : List α)
    (hl : l ≠ []) : argmin l < l.length := by
  cases l with
  | nil => exact absurd rfl hl
  | cons x xs => exact argmin_lt_length x xs

theorem argmin_le_getD_of_ne_nil {α : Type} [LinearOrder α] (l : List α)
    (hl : l ≠ []) (d : α) (j : Nat) (hj : j < l.length) :
    l.getD (argmin l) d ≤ l.getD j d := by
  cases l with
  | nil => exact absurd rfl hl
  | cons x xs => exact argmin_le_getD x xs d j hj

theorem argmin_first_of_lt {α : Type} [LinearOrder α] (l : List α) (d : α)
    (j : Nat) (hj : j < argmin l) : l.getD (argmin l) d < l.getD j d := by
  cases l with
  | nil => simp [argmin] at hj
  | cons x xs => exact argmin_first x xs d j hj

theorem range_map_getD {β : Type} (n : Nat) (f : Nat → β) (d : β) (i : Nat)
    (hi : i < n) : ((List.range n).map f).getD i d = f i := by
  rw [List.getD_eq_getElem _ _ (by simpa using hi)]
  simp

theorem map_div_getD (r : Row) (p : ℚ) (j : Nat) :
    (r.map (fun a => a / p)).getD j 0 = r.getD j 0 / p := by
  by_cases hj : j < r.length
  · rw [List.getD_eq_getElem _ _ (by simpa using hj), List.getD_eq_getElem _ _ hj]
    simp
  · rw [List.getD_eq_default _ _ (by simpa using hj), List.getD_eq_default _ _ (by simpa using hj)]
    rw [zero_div]

theorem zipWith_sub_getD (r s : Row) (c : ℚ) (j : Nat)
    (hr : j < r.length) (hs : j < s.length) :
    (List.zipWith (fun a b => a - c * b) r s).getD j 0
      = r.getD j 0 - c * s.getD j 0 := by
  have hz : j < (List.zipWith (fun a b => a - c * b) r s).length := by
    rw [List.length_zipWith]
    omega
  rw [List.getD_eq_getElem _ _ hz, List.getElem_zipWith,
    List.getD_eq_getElem _ _ hr, List.getD_eq_getElem _ _ hs]

theorem ratiosOf_length (st : SpxState) (e : Nat) :
    (ratiosOf st e).length = st.n_constrs := by
  simp [ratiosOf]

theorem ratiosOf_getD (st : SpxState) (e i : Nat) (hi : i < st.n_constrs) :
    (ratiosOf st e).getD i ⊤ = ratioAt st e i :=
  range_map_getD st.n_constrs (fun i => ratioAt st e i) ⊤ i hi

/-- The tableau produced by a default pivot, written in terms of the input
state (the iteration-counter update does not affect the tableau fields, so
this is definitional). -/
theorem pivot_none_tab (st : SpxState) :
    (Simplex.pivot st none none).tab
      = (List.range st.tab.length).map (fun i =>
          if i = leavesOf st then
            (rowOf st.tab (leavesOf st)).map
              (fun a => a / entry st.tab (leavesOf st) (entersOf st))
          else
            List.zipWith
              (fun a b => a - entry st.tab i (entersOf st) * b)
              (rowOf st.tab i)
              ((rowOf st.tab (leavesOf st)).map
                (fun a => a / entry st.tab (leavesOf st) (entersOf st)))) := rfl

/-- C3: one default pivot of `Simplex.pivot`.  The entering column
`entersOf st` is the structural column of minimal reduced cost, first among
ties; the leaving row `leavesOf st` is the constraint row of minimal ratio
(RHS over entering-column entry for rows with a strictly positive entry,
`+∞` otherwise), first among ties; the leaving row is divided by the pivot
element while every other row — objective rows included — has its
entering-column entry times the normalized leaving row subtracted from it;
and the iteration counter grows by one. -/
theorem pivot_default_rule (st : SpxState)
    (hnv : 0 < st.n_vars)
    (hnc : 0 < st.n_constrs)
    (hlen : st.n_vars ≤ (lastRowOf st).length)
    (hrows : st.n_constrs < st.tab.length) :
    (entersOf st < st.n_vars ∧
      (∀ j, j < st.n_vars → costAt st (entersOf st) ≤ costAt st j) ∧
      (∀ j, j < entersOf st → costAt st (entersOf st) < costAt st j)) ∧
    (leavesOf st < st.n_constrs ∧
      (∀ i, i < st.n_constrs →
        ratioAt st (entersOf st) (leavesOf st) ≤ ratioAt st (entersOf st) i) ∧
      (∀ i, i < leavesOf st →
        ratioAt st (entersOf st) (leavesOf st) < ratioAt st (entersOf st) i)) ∧
    ((Simplex.pivot st none none).tab.length = st.tab.length ∧
      (∀ j, (rowOf (Simplex.pivot st none none).tab (leavesOf st)).getD j 0
        = (rowOf st.tab (leavesOf st)).getD j 0
            / entry st.tab (leavesOf st) (entersOf st)) ∧
      (∀ i, i < st.tab.length → i ≠ leavesOf st →
        ∀ j, j < (rowOf st.tab i).length → j < (rowOf st.tab (leavesOf st)).length →
          entry (Simplex.pivot st none none).tab i j
            = entry st.tab i j - entry st.tab i (entersOf st)
                * ((rowOf st.tab (leavesOf st)).getD j 0
                    / entry st.tab (leavesOf st) (entersOf st)))) ∧
    (Simplex.pivot st none none).iterations = st.iterations + 1 := by
  have hclen : (costsOf st).length = st.n_vars := costsOf_length st hlen
  have hcne : costsOf st ≠ [] := by
    apply List.ne_nil_of_length_pos
    rw [hclen]
    exact hnv
  have hrlen : (ratiosOf st (entersOf st)).length = st.n_constrs :=
    ratiosOf_length st (entersOf st)
  have hrne : ratiosOf st (entersOf st) ≠ [] := by
    apply List.ne_nil_of_length_pos
    rw [hrlen]
    exact hnc
  have heq : argmin (costsOf st) = entersOf st := rfl
  have hleq : argmin (ratiosOf st (entersOf st)) = leavesOf st := rfl
  have he : entersOf st < st.n_vars := by
    have := argmin_lt_length_of_ne_nil (costsOf st) hcne
    rwa [hclen, heq] at this
  have hl : leavesOf st < st.n_constrs := by
    have := argmin_lt_length_of_ne_nil (ratiosOf st (entersOf st)) hrne
    rwa [hrlen, hleq] at this
  have hlrow : leavesOf st < st.tab.length := lt_trans hl hrows
  refine ⟨⟨he, ?_, ?_⟩, ⟨hl, ?_, ?_⟩, ⟨?_, ?_, ?_⟩, rfl⟩
  · intro j hj
    have h := argmin_le_getD_of_ne_nil (costsOf st) hcne 0 j (by rw [hclen]; exact hj)
    rw [heq, costsOf_getD st _ he, costsOf_getD st j hj] at h
    exact h
  · intro j hj
    have h := argmin_first_of_lt (costsOf st) 0 j (by rw [heq]; exact hj)
    rw [heq, costsOf_getD st _ he, costsOf_getD st j (lt_trans hj he)] at h
    exact h
  · intro i hi
    have h := argmin_le_getD_of_ne_nil (ratiosOf st (entersOf st)) hrne ⊤ i
      (by rw [hrlen]; exact hi)
    rw [hleq, ratiosOf_getD st _ _ hl, ratiosOf_getD st _ i hi] at h
    exact h
  · intro i hi
    have h := argmin_first_of_lt (ratiosOf st (entersOf st)) ⊤ i (by rw [hleq]; exact hi)
    rw [hleq, ratiosOf_getD st _ _ hl, ratiosOf_getD st _ i (lt_trans hi hl)] at h
    exact h
  · rw [pivot_none_tab]
    simp
  · intro j
    rw [pivot_none_tab]
    unfold rowOf
    rw [range_map_getD _ _ _ _ hlrow]
    rw [if_pos rfl]
    exact map_div_getD _ _ j
  · intro i hi hne j hji hjl
    unfold entry
    rw [pivot_none_tab]
    unfold rowOf
    unfold rowOf at hji hjl
    rw [range_map_getD _ _ _ _ hi]
    rw [if_neg hne]
    rw [zipWith_sub_getD _ _ _ j hji (by simpa using hjl)]
    rw [map_div_getD]
    rfl

/-- The concrete tableau used as the C3 witness: two constraints, two
structural variables. -/
def c3St : SpxState := Simplex.new [[1, 2, 4], [3, 1, 6], [-1, -2, 0]] ["x1", "x2"]

/-- Witness for C3: the pivot characterization evaluated on `c3St`. -/
theorem pivot_default_rule_witness :
    (entersOf c3St < c3St.n_vars ∧
      (∀ j, j < c3St.n_vars → costAt c3St (entersOf c3St) ≤ costAt c3St j) ∧
      (∀ j, j < entersOf c3St → costAt c3St (entersOf c3St) < costAt c3St j)) ∧
    (leavesOf c3St < c3St.n_constrs ∧
      (∀ i, i < c3St.n_constrs →
        ratioAt c3St (entersOf c3St) (leavesOf c3St) ≤ ratioAt c3St (entersOf c3St) i) ∧
      (∀ i, i < leavesOf c3St →
        ratioAt c3St (entersOf c3St) (leavesOf c3St) < ratioAt c3St (entersOf c3St) i)) ∧
    ((Simplex.pivot c3St none none).tab.length = c3St.tab.length ∧
      (∀ j, (rowOf (Simplex.pivot c3St none none).tab (leavesOf c3St)).getD j 0
        = (rowOf c3St.tab (leavesOf c3St)).getD j 0
            / entry c3St.tab (leavesOf c3St) (entersOf c3St)) ∧
      (∀ i, i < c3St.tab.length → i ≠ leavesOf c3St →
        ∀ j, j < (rowOf c3St.tab i).length → j < (rowOf c3St.tab (leavesOf c3St)).length →
          entry (Simplex.pivot c3St none none).tab i j
            = entry c3St.tab i j - entry c3St.tab i (entersOf c3St)
                * ((rowOf c3St.tab (leavesOf c3St)).getD j 0
                    / entry c3St.tab (leavesOf c3St) (entersOf c3St)))) ∧
    (Simplex.pivot c3St none none).iterations = c3St.iterations + 1 :=
  pivot_default_rule c3St (by decide) (by decide) (by decide) (by decide)

/-! Helper lemmas for the phase-1 epilogue (C5). -/

/-- The tableau produced by an explicit pivot, in terms of the input state. -/
theorem pivot_explicit_tab (st : SpxState) (e l : Nat) :
    (Simplex.pivot st (some e) (some l)).tab
      = (List.range st.tab.length).map (fun i =>
          if i = l then (rowOf st.tab l).map (fun a => a / entry st.tab l e)
          else List.zipWith (fun a b => a - entry st.tab i e * b) (rowOf st.tab i)
            ((rowOf st.tab l).map (fun a => a / entry st.tab l e))) := rfl

theorem pivot_explicit_n_vars (st : SpxState) (e l : Nat) :
    (Simplex.pivot st (some e) (some l)).n_vars = st.n_vars := rfl

theorem pivot_explicit_n_constrs (st : SpxState) (e l : Nat) :
    (Simplex.pivot st (some e) (some l)).n_constrs = st.n_constrs := rfl

theorem zipWith_sub_zero_mul (r s : Row) (h : r.length ≤ s.length) :
    List.zipWith (fun a b => a - 0 * b) r s = r := by
  induction r generalizing s with
  | nil => simp
  | cons a r' ih =>
    cases s with
    | nil => simp at h
    | cons b s' =>
      show (a - 0 * b) :: List.zipWith (fun a b => a - 0 * b) r' s' = a :: r'
      rw [ih s' (by simpa using h)]
      norm_num

theorem mem_indicesOf_fst_lt (st : SpxState) (p : Nat × Nat)
    (hp : p ∈ indicesOf st) : p.1 < st.n_constrs := by
  unfold indicesOf at hp
  simp only [List.mem_flatMap, List.mem_range, List.mem_filterMap] at hp
  obtain ⟨i, hi, j, hj, hpj⟩ := hp
  split at hpj
  · cases hpj
    exact hi
  · cases hpj

/-- The invariant carried through the redundancy-removal fold: the shape
fields are preserved, every row keeps width `w`, and the all-zero
structural row `i` is untouched. -/
def RedInv (st : SpxState) (w i : Nat) (s : SpxState) : Prop :=
  s.n_vars = st.n_vars ∧ s.n_constrs = st.n_constrs ∧
  s.tab.length = st.tab.length ∧ (∀ r ∈ s.tab, r.length = w) ∧
  rowOf s.tab i = rowOf st.tab i

theorem removeStep_invariant (st : SpxState) (w i : Nat)
    (hc : st.n_constrs ≤ st.tab.length)
    (hi : i < st.n_constrs)
    (hz : ∀ jj, jj < st.n_vars → entry st.tab i jj = 0)
    (s : SpxState) (p : Nat × Nat)
    (hpl : p.1 < st.n_constrs)
    (hs : RedInv st w i s) : RedInv st w i (removeStep s p) := by
  obtain ⟨hv, hnc, hlen, hrect, hrow⟩ := hs
  unfold removeStep
  by_cases h1 : s.n_vars ≤ p.2
  swap
  · rw [if_neg h1]
    exact ⟨hv, hnc, hlen, hrect, hrow⟩
  rw [if_pos h1]
  by_cases h2 : ((List.range s.n_vars).all
      (fun j => decide (entry s.tab p.1 j = 0))) = true
  · rw [if_pos h2]
    exact ⟨hv, hnc, hlen, hrect, hrow⟩
  rw [if_neg h2]
  -- the pivot branch: first identify the entering column
  have hfind : ∃ e, ((List.range s.n_vars).find?
      (fun j => decide (entry s.tab p.1 j ≠ 0))) = some e := by
    rw [← Option.isSome_iff_exists, List.find?_isSome]
    rw [List.all_eq_true] at h2
    push_neg at h2
    obtain ⟨jj, hjjm, hjj⟩ := h2
    refine ⟨jj, hjjm, ?_⟩
    simp only [decide_eq_true_eq] at hjj ⊢
    simpa using hjj
  obtain ⟨e, he⟩ := hfind
  rw [he]
  simp only [Option.getD_some]
  have hemem : e < s.n_vars := List.mem_range.mp (List.mem_of_find?_eq_some he)
  have hpi : p.1 ≠ i := by
    intro hcon
    apply h2
    rw [List.all_eq_true]
    intro jj hjjm
    rw [decide_eq_true_eq]
    have hjj : jj < st.n_vars := by rw [← hv]; exact List.mem_range.mp hjjm
    unfold entry
    rw [hcon]
    unfold rowOf
    rw [show s.tab.getD i [] = rowOf st.tab i from hrow]
    exact hz jj hjj
  have hplen : p.1 < s.tab.length := by
    rw [hlen]
    exact lt_of_lt_of_le hpl hc
  have hilen : i < s.tab.length := by
    rw [hlen]
    exact lt_of_lt_of_le hi hc
  have hwl : (rowOf s.tab p.1).length = w := by
    apply hrect
    unfold rowOf
    rw [List.getD_eq_getElem _ _ hplen]
    exact List.getElem_mem hplen
  have hwi : (rowOf s.tab i).length = w := by
    apply hrect
    unfold rowOf
    rw [List.getD_eq_getElem _ _ hilen]
    exact List.getElem_mem hilen
  refine ⟨pivot_explicit_n_vars s e p.1 ▸ hv,
    pivot_explicit_n_constrs s e p.1 ▸ hnc, ?_, ?_, ?_⟩
  · rw [pivot_explicit_tab]
    simpa using hlen
  · intro r hr
    rw [pivot_explicit_tab] at hr
    obtain ⟨k, hk, rfl⟩ := List.mem_map.mp hr
    have hkl : k < s.tab.length := List.mem_range.mp hk
    have hwk : (rowOf s.tab k).length = w := by
      apply hrect
      unfold rowOf
      rw [List.getD_eq_getElem _ _ hkl]
      exact List.getElem_mem hkl
    by_cases hkp : k = p.1
    · rw [if_pos hkp]
      simpa using hwl
    · rw [if_neg hkp]
      rw [List.length_zipWith, List.length_map, hwk, hwl]
      exact min_self w
  · unfold rowOf
    rw [pivot_explicit_tab]
    rw [range_map_getD _ _ _ _ hilen]
    rw [if_neg (fun hcon => hpi hcon.symm)]
    have hzero : entry s.tab i e = 0 := by
      unfold entry
      rw [show rowOf s.tab i = rowOf st.tab i from hrow]
      exact hz e (by rw [← hv]; exact hemem)
    rw [hzero]
    rw [zipWith_sub_zero_mul _ _ (by rw [List.length_map, hwl]; rw [show (rowOf s.tab i).length = w from hwi]  )]
    exact hrow

theorem foldl_removeStep_invariant (st : SpxState) (w i : Nat)
    (hc : st.n_constrs ≤ st.tab.length)
    (hi : i < st.n_constrs)
    (hz : ∀ jj, jj < st.n_vars → entry st.tab i jj = 0)
    (L : List (Nat × Nat)) (hL : ∀ p ∈ L, p.1 < st.n_constrs) :
    ∀ s, RedInv st w i s → RedInv st w i (L.foldl removeStep s) := by
  induction L with
  | nil => intro s hs; exact hs
  | cons p L ih =>
    intro s hs
    exact ih (fun q hq => hL q (List.mem_cons_of_mem p hq)) (removeStep s p)
      (removeStep_invariant st w i hc hi hz s p (hL p (List.mem_cons_self p L)) hs)

theorem removeStep_n_vars (s : SpxState) (p : Nat × Nat) :
    (removeStep s p).n_vars = s.n_vars := by
  unfold removeStep
  by_cases h1 : s.n_vars ≤ p.2
  · rw [if_pos h1]
    by_cases h2 : ((List.range s.n_vars).all
        (fun j => decide (entry s.tab p.1 j = 0))) = true
    · rw [if_pos h2]
    · rw [if_neg h2]
      rfl
  · rw [if_neg h1]

theorem removeRedundancy_n_vars (st : SpxState) :
    (removeRedundancy st).n_vars = st.n_vars := by
  unfold removeRedundancy
  generalize indicesOf st = L
  induction L generalizing st with
  | nil => rfl
  | cons p L ih =>
    show ((L.foldl removeStep (removeStep st p))).n_vars = st.n_vars
    rw [ih (removeStep st p)]
    exact removeStep_n_vars st p

/-- C5: the epilogue of `Simplex.put_canonical` after the phase-1 pivoting
loop.  The original problem is declared infeasible (code `2`) exactly when
the auxiliary objective value — the bottom-right cell at the feasibility
check — differs from `0` by more than the tolerance `1e-5`; when it is
within tolerance, the status returns to solving (`-1`) and the artificial
columns and the phase-1 objective row are stripped (each remaining row is
truncated to its structural columns plus its RHS, and the last row is
dropped); any constraint row whose basic column is artificial but whose
structural part is all zero is retained untouched by the removal loop —
linearly redundant rows are kept, never an error; and whenever the removal
loop meets a basic artificial column whose row does have a nonzero
structural entry, its step is exactly a pivot whose entering column is a
nonzero structural entry of that row and whose leaving row is that row:
the basic artificial is pivoted out. -/
theorem put_canonical_after_phase1 (st : SpxState) (w : Nat)
    (hw : ∀ r ∈ st.tab, r.length = w)
    (hc : st.n_constrs ≤ st.tab.length) :
    ((canonCheck (removeRedundancy st)).code = 2 ↔
      ¬ (|rowLastQ (((removeRedundancy st).tab.getLast?).getD [])| ≤ 1 / 100000)) ∧
    ((|rowLastQ (((removeRedundancy st).tab.getLast?).getD [])| ≤ 1 / 100000) →
      (canonCheck (removeRedundancy st)).code = -1 ∧
      (canonCheck (removeRedundancy st)).tab
        = (removeRedundancy st).tab.dropLast.map
            (fun r => r.take st.n_vars ++ [rowLastQ r])) ∧
    (∀ i j, (i, j) ∈ indicesOf st → st.n_vars ≤ j →
      (∀ jj, jj < st.n_vars → entry st.tab i jj = 0) →
      rowOf (removeRedundancy st).tab i = rowOf st.tab i) ∧
    (∀ (s : SpxState) (p : Nat × Nat), s.n_vars ≤ p.2 →
      ¬ (∀ jj, jj < s.n_vars → entry s.tab p.1 jj = 0) →
      ∃ e, e < s.n_vars ∧ entry s.tab p.1 e ≠ 0 ∧
        removeStep s p = Simplex.pivot s (some e) (some p.1)) := by
  refine ⟨?_, ?_, ?_, ?_⟩
  · unfold canonCheck
    by_cases h : (|rowLastQ (((removeRedundancy st).tab.getLast?).getD [])| ≤ 1 / 100000)
    · rw [if_pos h]
      show (-1 : Int) = 2 ↔ _
      constructor
      · intro hcode
        exact absurd hcode (by decide)
      · intro hcon
        exact absurd h hcon
    · rw [if_neg h]
      show (2 : Int) = 2 ↔ _
      exact ⟨fun _ => h, fun _ => rfl⟩
  · intro h
    unfold canonCheck
    rw [if_pos h]
    refine ⟨rfl, ?_⟩
    rw [removeRedundancy_n_vars]
  · intro i j hmem hjv hz
    have hil : i < st.n_constrs := mem_indicesOf_fst_lt st (i, j) hmem
    have hinv : RedInv st w i (removeRedundancy st) := by
      unfold removeRedundancy
      exact foldl_removeStep_invariant st w i hc hil hz (indicesOf st)
        (fun p hp => mem_indicesOf_fst_lt st p hp) st ⟨rfl, rfl, rfl, hw, rfl⟩
    exact hinv.2.2.2.2
  · intro s p hj hnz
    have hne : ¬ (((List.range s.n_vars).all
        (fun jj => decide (entry s.tab p.1 jj = 0))) = true) := by
      intro hA
      apply hnz
      intro jj hjj
      exact decide_eq_true_eq.mp ((List.all_eq_true.mp hA) _ (List.mem_range.mpr hjj))
    have hsome : ((List.range s.n_vars).find?
        (fun jj => decide (entry s.tab p.1 jj ≠ 0))).isSome := by
      rw [List.find?_isSome]
      push_neg at hnz
      obtain ⟨jj, hjjlt, hjjne⟩ := hnz
      exact ⟨jj, List.mem_range.mpr hjjlt, decide_eq_true hjjne⟩
    obtain ⟨e, he⟩ := Option.isSome_iff_exists.mp hsome
    refine ⟨e, List.mem_range.mp (List.mem_of_find?_eq_some he), ?_, ?_⟩
    · have hp := List.find?_some he
      simpa using hp
    · unfold removeStep
      rw [if_pos hj, if_neg hne, he]
      rfl

/-- The concrete post-phase-1 state used as the C5 witness: the basic
column of row 0 is the artificial column 2 with an all-zero structural part
(a redundant constraint, retained), the basic column of row 1 is the
artificial column 3 with value 0 over a nonzero structural part (pivoted
out on column 0 by the removal loop), and the auxiliary objective value
is 0. -/
def c5St : SpxState :=
  { tab := [[0, 0, 1, 0, 0], [2, 1, 0, 1, 0], [0, 0, 0, 0, 0], [0, 0, 0, 0, 0]],
    constrs := [[0, 0, 1, 0, 0], [2, 1, 0, 1, 0]],
    objective := [0, 0, 0, 0, 0],
    n_constrs := 2, n_vars := 2, n_arts := 2,
    names := ["x1", "x2", "a1", "a2"], iterations := 0, code := -1 }

/-- Witness for C5: the phase-1 epilogue characterization on `c5St`, whose
removal loop both retains the redundant row 0 and pivots the basic
artificial of row 1 out on its structural column 0. -/
theorem put_canonical_after_phase1_witness :
    (((canonCheck (removeRedundancy c5St)).code = 2 ↔
      ¬ (|rowLastQ (((removeRedundancy c5St).tab.getLast?).getD [])| ≤ 1 / 100000)) ∧
    ((|rowLastQ (((removeRedundancy c5St).tab.getLast?).getD [])| ≤ 1 / 100000) →
      (canonCheck (removeRedundancy c5St)).code = -1 ∧
      (canonCheck (removeRedundancy c5St)).tab
        = (removeRedundancy c5St).tab.dropLast.map
            (fun r => r.take c5St.n_vars ++ [rowLastQ r])) ∧
    (∀ i j, (i, j) ∈ indicesOf c5St → c5St.n_vars ≤ j →
      (∀ jj, jj < c5St.n_vars → entry c5St.tab i jj = 0) →
      rowOf (removeRedundancy c5St).tab i = rowOf c5St.tab i) ∧
    (∀ (s : SpxState) (p : Nat × Nat), s.n_vars ≤ p.2 →
      ¬ (∀ jj, jj < s.n_vars → entry s.tab p.1 jj = 0) →
      ∃ e, e < s.n_vars ∧ entry s.tab p.1 e ≠ 0 ∧
        removeStep s p = Simplex.pivot s (some e) (some p.1))) :=
  put_canonical_after_phase1 c5St 5 (by decide) (by decide)

/-! Helper lemmas for `Node.add_var` (C8). -/

theorem varGe_eq (nm : String) (c : ℚ) (h : nm ≠ "const") :
    varGe nm c = ⟨[(nm, 1)], ">=", c⟩ := by
  have hb : (nm == "const") = false := beq_eq_false_iff_ne.mpr h
  unfold varGe linConstrOf
  simp [dget?, dinsert, dgetD, dremove, List.find?, hb]

theorem varLe_eq (nm : String) (c : ℚ) (h : nm ≠ "const") :
    varLe nm c = ⟨[(nm, 1)], "<=", c⟩ := by
  have hb : (nm == "const") = false := beq_eq_false_iff_ne.mpr h
  unfold varLe linConstrOf
  simp [dget?, dinsert, dgetD, dremove, List.find?, hb]

theorem add_constr_ge (st : NodeSt) (nm : String) (c : ℚ)
    (h : nm ≠ "p" ++ toString (st.surplus.length + 1)) :
    (Node.add_constr st ⟨[(nm, 1)], ">=", c⟩).constrs
      = st.constrs ++ [⟨[(nm, 1), ("p" ++ toString (st.surplus.length + 1), -1)], ">=", c⟩]
    ∧ (Node.add_constr st ⟨[(nm, 1)], ">=", c⟩).slacks = st.slacks
    ∧ (Node.add_constr st ⟨[(nm, 1)], ">=", c⟩).conts = st.conts
    ∧ (Node.add_constr st ⟨[(nm, 1)], ">=", c⟩).varsD = st.varsD := by
  have hb : (nm == "p" ++ toString (st.surplus.length + 1)) = false := beq_eq_false_iff_ne.mpr h
  unfold Node.add_constr
  refine ⟨?_, rfl, rfl, rfl⟩
  simp [dinsert, hb]

theorem add_constr_le (st : NodeSt) (nm : String) (c : ℚ)
    (h : nm ≠ "s" ++ toString (st.slacks.length + 1)) :
    (Node.add_constr st ⟨[(nm, 1)], "<=", c⟩).constrs
      = st.constrs ++ [⟨[(nm, 1), ("s" ++ toString (st.slacks.length + 1), 1)], "<=", c⟩]
    ∧ (Node.add_constr st ⟨[(nm, 1)], "<=", c⟩).surplus = st.surplus
    ∧ (Node.add_constr st ⟨[(nm, 1)], "<=", c⟩).conts = st.conts
    ∧ (Node.add_constr st ⟨[(nm, 1)], "<=", c⟩).varsD = st.varsD := by
  have hb : (nm == "s" ++ toString (st.slacks.length + 1)) = false := beq_eq_false_iff_ne.mpr h
  unfold Node.add_constr
  refine ⟨?_, rfl, rfl, rfl⟩
  simp [dinsert, hb]

/-- The `"cont"` branch of `Node.add_var`, written out (definitional). -/
theorem add_var_cont_state (st : NodeSt) (lb : ℚ) (ub : Option ℚ) (name : Option String) :
    (Node.add_var st "cont" lb ub name).1
      = (match ub with
         | some u => Node.add_constr
             (if 0 < lb then
                Node.add_constr
                  { st with
                    conts := dinsert (name.getD ("x" ++ toString (st.conts.length + 1)))
                      ⟨name.getD ("x" ++ toString (st.conts.length + 1)), "cont", none⟩ st.conts,
                    varsD := dupdate st.varsD
                      (dinsert (name.getD ("x" ++ toString (st.conts.length + 1)))
                        ⟨name.getD ("x" ++ toString (st.conts.length + 1)), "cont", none⟩ st.conts) }
                  (varGe (name.getD ("x" ++ toString (st.conts.length + 1))) lb)
              else
                { st with
                  conts := dinsert (name.getD ("x" ++ toString (st.conts.length + 1)))
                    ⟨name.getD ("x" ++ toString (st.conts.length + 1)), "cont", none⟩ st.conts,
                  varsD := dupdate st.varsD
                    (dinsert (name.getD ("x" ++ toString (st.conts.length + 1)))
                      ⟨name.getD ("x" ++ toString (st.conts.length + 1)), "cont", none⟩ st.conts) })
             (varLe (name.getD ("x" ++ toString (st.conts.length + 1))) u)
         | none =>
             if 0 < lb then
               Node.add_constr
                 { st with
                   conts := dinsert (name.getD ("x" ++ toString (st.conts.length + 1)))
                     ⟨name.getD ("x" ++ toString (st.conts.length + 1)), "cont", none⟩ st.conts,
                   varsD := dupdate st.varsD
                     (dinsert (name.getD ("x" ++ toString (st.conts.length + 1)))
                       ⟨name.getD ("x" ++ toString (st.conts.length + 1)), "cont", none⟩ st.conts) }
                 (varGe (name.getD ("x" ++ toString (st.conts.length + 1))) lb)
             else
               { st with
                 conts := dinsert (name.getD ("x" ++ toString (st.conts.length + 1)))
                   ⟨name.getD ("x" ++ toString (st.conts.length + 1)), "cont", none⟩ st.conts,
                 varsD := dupdate st.varsD
                   (dinsert (name.getD ("x" ++ toString (st.conts.length + 1)))
                     ⟨name.getD ("x" ++ toString (st.conts.length + 1)), "cont", none⟩ st.conts) }) := rfl

/-- The `"bin"` branch of `Node.add_var`, written out (definitional). -/
theorem add_var_bin_state (st : NodeSt) (lb : ℚ) (ub : Option ℚ) (name : Option String) :
    (Node.add_var st "bin" lb ub name).1
      = Node.add_constr
          { st with
            bins := dinsert (name.getD ("b" ++ toString (st.bins.length + 1)))
              ⟨name.getD ("b" ++ toString (st.bins.length + 1)), "bin", none⟩ st.bins,
            varsD := dupdate st.varsD
              (dinsert (name.getD ("b" ++ toString (st.bins.length + 1)))
                ⟨name.getD ("b" ++ toString (st.bins.length + 1)), "bin", none⟩ st.bins) }
          (varLe (name.getD ("b" ++ toString (st.bins.length + 1))) 1) := rfl

/-- C8 amended: `Node.add_var` injects bound constraints only for
*continuous* variables — `var >= lb` (with a fresh surplus column) when
`lb > 0` and `var <= ub` (with a fresh slack column) when `ub` is finite; a
binary variable receives exactly `var <= 1` whatever bounds are supplied;
an integer variable receives no constraint at all.  The name-inequality
hypotheses rule out a user-chosen variable name colliding with the
reserved `const` key or with the generated slack/surplus names. -/
theorem add_var_bounds_only_for_cont (st : NodeSt) (lb : ℚ) (ub : Option ℚ)
    (name : Option String)
    (hc1 : name.getD ("x" ++ toString (st.conts.length + 1)) ≠ "const")
    (hc2 : name.getD ("x" ++ toString (st.conts.length + 1))
      ≠ "p" ++ toString (st.surplus.length + 1))
    (hc3 : name.getD ("x" ++ toString (st.conts.length + 1))
      ≠ "s" ++ toString (st.slacks.length + 1))
    (hb1 : name.getD ("b" ++ toString (st.bins.length + 1)) ≠ "const")
    (hb2 : name.getD ("b" ++ toString (st.bins.length + 1))
      ≠ "s" ++ toString (st.slacks.length + 1)) :
    ((Node.add_var st "int" lb ub name).1.constrs = st.constrs) ∧
    ((Node.add_var st "bin" lb ub name).1.constrs = st.constrs ++
      [⟨[(name.getD ("b" ++ toString (st.bins.length + 1)), 1),
         ("s" ++ toString (st.slacks.length + 1), 1)], "<=", 1⟩]) ∧
    ((Node.add_var st "cont" lb ub name).1.constrs = st.constrs ++
      (if 0 < lb then
        [⟨[(name.getD ("x" ++ toString (st.conts.length + 1)), 1),
           ("p" ++ toString (st.surplus.length + 1), -1)], ">=", lb⟩]
       else []) ++
      (match ub with
       | some u =>
         [⟨[(name.getD ("x" ++ toString (st.conts.length + 1)), 1),
            ("s" ++ toString (st.slacks.length + 1), 1)], "<=", u⟩]
       | none => [])) := by
  refine ⟨rfl, ?_, ?_⟩
  · rw [add_var_bin_state, varLe_eq _ 1 hb1]
    exact (add_constr_le _ _ 1 hb2).1
  · rw [add_var_cont_state]
    set nm := name.getD ("x" ++ toString (st.conts.length + 1)) with hnm
    set stX : NodeSt := { st with
      conts := dinsert nm ⟨nm, "cont", none⟩ st.conts,
      varsD := dupdate st.varsD (dinsert nm ⟨nm, "cont", none⟩ st.conts) } with hstX
    cases ub with
    | none =>
      by_cases hlb : 0 < lb
      · simp only [if_pos hlb]
        rw [varGe_eq _ lb hc1]
        rw [(add_constr_ge stX nm lb hc2).1]
        simp [hstX]
      · simp only [if_neg hlb]
        simp [hstX]
    | some u =>
      by_cases hlb : 0 < lb
      · simp only [if_pos hlb]
        rw [varGe_eq _ lb hc1, varLe_eq _ u hc1]
        rw [(add_constr_le (Node.add_constr stX ⟨[(nm, 1)], ">=", lb⟩) nm u hc3).1]
        rw [(add_constr_ge stX nm lb hc2).1]
        simp [hstX, (add_constr_ge stX nm lb hc2).2.1]
      · simp only [if_neg hlb]
        rw [varLe_eq _ u hc1]
        rw [(add_constr_le stX nm u hc3).1]
        simp [hstX]

/-- Witness for C8: the amended bound-injection behavior evaluated on a
fresh node with `lb = 2`, `ub = 5` and variable name `v`. -/
theorem add_var_bounds_only_for_cont_witness :
    (((Node.add_var (Node.new 0) "int" 2 (some 5) (some "v")).1.constrs
        = (Node.new 0).constrs) ∧
    ((Node.add_var (Node.new 0) "bin" 2 (some 5) (some "v")).1.constrs
        = (Node.new 0).constrs ++
      [⟨[((some "v").getD ("b" ++ toString ((Node.new 0).bins.length + 1)), 1),
         ("s" ++ toString ((Node.new 0).slacks.length + 1), 1)], "<=", 1⟩]) ∧
    ((Node.add_var (Node.new 0) "cont" 2 (some 5) (some "v")).1.constrs
        = (Node.new 0).constrs ++
      (if (0 : ℚ) < 2 then
        [⟨[((some "v").getD ("x" ++ toString ((Node.new 0).conts.length + 1)), 1),
           ("p" ++ toString ((Node.new 0).surplus.length + 1), -1)], ">=", 2⟩]
       else []) ++
      (match (some (5 : ℚ) : Option ℚ) with
       | some u =>
         [⟨[((some "v").getD ("x" ++ toString ((Node.new 0).conts.length + 1)), 1),
            ("s" ++ toString ((Node.new 0).slacks.length + 1), 1)], "<=", u⟩]
       | none => []))) :=
  add_var_bounds_only_for_cont (Node.new 0) 2 (some 5) (some "v")
    (by decide) (by decide) (by decide) (by decide) (by decide)

/-! Helper lemmas for `Model.add_var` (C10). -/

theorem dget?_dinsert {τ : Type} (k' : String) (v : τ) (d : Dict τ) (k : String) :
    dget? (dinsert k' v d) k = if k' = k then some v else dget? d k := by
  induction d with
  | nil =>
    by_cases h : k' = k
    · simp [dget?, dinsert, List.find?, h]
    · simp [dget?, dinsert, List.find?, h, beq_eq_false_iff_ne.mpr h]
  | cons p rest ih =>
    by_cases h1 : p.1 = k'
    · by_cases h : k' = k
      · simp [dget?, dinsert, List.find?, h1, h]
      · have hp : p.1 ≠ k := by rw [h1]; exact h
        simp [dget?, dinsert, List.find?, h1, h,
          beq_eq_false_iff_ne.mpr hp, beq_eq_false_iff_ne.mpr h]
    · by_cases h2 : p.1 = k
      · have hk : ¬ (k' = k) := fun hc => h1 (by rw [h2, hc])
        have hk2 : ¬ (k = k') := fun hc => hk hc.symm
        simp [dget?, dinsert, List.find?, beq_eq_false_iff_ne.mpr h1, h2, hk,
          beq_eq_false_iff_ne.mpr hk2]
      · have ih' := ih
        simp only [dget?] at ih'
        simp [dget?, dinsert, List.find?, beq_eq_false_iff_ne.mpr h1,
          beq_eq_false_iff_ne.mpr h2, ih']

theorem isSome_dget?_dupdate {τ : Type} (L : Dict τ) (d : Dict τ) (k : String) :
    (dget? (dupdate d L) k).isSome = true ↔
      ((dget? d k).isSome = true ∨ (dget? L k).isSome = true) := by
  induction L generalizing d with
  | nil => simp [dupdate, dget?, List.find?]
  | cons p L ih =>
    show (dget? (dupdate (dinsert p.1 p.2 d) L) k).isSome = true ↔ _
    rw [ih, dget?_dinsert]
    by_cases hk : p.1 = k
    · simp [dget?, List.find?, hk]
    · simp [dget?, List.find?, hk, beq_eq_false_iff_ne.mpr hk]

theorem add_constr_varsD (st : NodeSt) (c : PLinConstr) :
    (Node.add_constr st c).varsD = st.varsD := by
  unfold Node.add_constr
  by_cases h1 : (c.sense == "==") = true
  · rw [if_pos h1]
  · rw [if_neg h1]
    by_cases h2 : (c.sense == "<=") = true
    · rw [if_pos h2]
    · rw [if_neg h2]
      by_cases h3 : (c.sense == ">=") = true
      · rw [if_pos h3]
      · rw [if_neg h3]

/-- `Node.add_var` with an explicit name always leaves that name present in
the node's `vars` dict, for each of the three recognized kinds. -/
theorem add_var_some_name_found (st : NodeSt) (ty : String) (lb : ℚ) (ub : Option ℚ)
    (s : String) (hty : ty = "cont" ∨ ty = "bin" ∨ ty = "int") :
    (dget? ((Node.add_var st ty lb ub (some s)).1.varsD) s).isSome = true := by
  have hfound : ∀ (d0 : Dict PVar),
      (dget? (dupdate st.varsD (dinsert s ⟨s, ty, none⟩ d0)) s).isSome = true := by
    intro d0
    rw [isSome_dget?_dupdate]
    right
    rw [dget?_dinsert]
    rw [if_pos rfl]
    rfl
  rcases hty with h | h | h <;> subst h
  · rw [add_var_cont_state]
    cases ub with
    | none =>
      by_cases hlb : 0 < lb
      · simp only [if_pos hlb]
        rw [add_constr_varsD]
        exact hfound st.conts
      · simp only [if_neg hlb]
        exact hfound st.conts
    | some u =>
      by_cases hlb : 0 < lb
      · simp only [if_pos hlb]
        rw [add_constr_varsD, add_constr_varsD]
        exact hfound st.conts
      · simp only [if_neg hlb]
        rw [add_constr_varsD]
        exact hfound st.conts
  · rw [add_var_bin_state]
    rw [add_constr_varsD]
    exact hfound st.bins
  · exact hfound st.ints

/-- C10 amended: `Model.add_var` raises `KeyError` (returns `none`) exactly
when the name argument is omitted, or when both a lower and an upper bound
are supplied *and* the name is not already a root variable — in the latter
case no branch of the `if`/`elif` chain fires, so no variable is created,
but a pre-existing variable under that name makes the final lookup succeed
and is returned.  With a name and at most one bound the call always returns
a variable. -/
theorem model_add_var_keyerror_iff (root : NodeSt) (ty : String) (lb ub : Option ℚ)
    (name : Option String)
    (hty : ty = "cont" ∨ ty = "bin" ∨ ty = "int") :
    ((Model.add_var root ty lb ub name).2 = none ↔
      (name = none ∨ (lb.isSome = true ∧ ub.isSome = true ∧
        name.bind (fun s => dget? root.varsD s) = none))) := by
  cases name with
  | none =>
    simp [Model.add_var]
  | some s =>
    cases lb with
    | none =>
      cases ub with
      | none =>
        show (dget? (Node.add_var root ty 0 none (some s)).1.varsD s = none ↔ _)
        apply iff_of_false
        · intro h
          have hs := add_var_some_name_found root ty 0 none s hty
          rw [h] at hs
          simp at hs
        · rintro (h | ⟨h1, h2, h3⟩)
          · exact Option.noConfusion h
          · simp at h1
      | some u =>
        show (dget? (Node.add_var root ty 0 (some u) (some s)).1.varsD s = none ↔ _)
        apply iff_of_false
        · intro h
          have hs := add_var_some_name_found root ty 0 (some u) s hty
          rw [h] at hs
          simp at hs
        · rintro (h | ⟨h1, h2, h3⟩)
          · exact Option.noConfusion h
          · simp at h1
    | some l =>
      cases ub with
      | none =>
        show (dget? (Node.add_var root ty l none (some s)).1.varsD s = none ↔ _)
        apply iff_of_false
        · intro h
          have hs := add_var_some_name_found root ty l none s hty
          rw [h] at hs
          simp at hs
        · rintro (h | ⟨h1, h2, h3⟩)
          · exact Option.noConfusion h
          · simp at h2
      | some u =>
        show (dget? root.varsD s = none ↔ _)
        constructor
        · intro h
          exact Or.inr ⟨rfl, rfl, h⟩
        · rintro (h | ⟨h1, h2, h3⟩)
          · exact Option.noConfusion h
          · exact h3

/-- Witness for C10: the `KeyError` characterization instantiated on a
fresh root, kind `cont`, no bounds and the name `x` — the call returns a
variable, and the right-hand side is false as well. -/
theorem model_add_var_keyerror_iff_witness :
    ((Model.add_var (Node.new 0) "cont" none none (some "x")).2 = none ↔
      ((some "x" : Option String) = none ∨
        ((none : Option ℚ).isSome = true ∧ (none : Option ℚ).isSome = true ∧
          (some "x" : Option String).bind
            (fun s => dget? (Node.new 0).varsD s) = none))) :=
  model_add_var_keyerror_iff (Node.new 0) "cont" none none (some "x") (Or.inl rfl)

end Toyplex
